import Mathlib

/-!
Shallow embedding of the metaPhase graph-transformation engine
(src/metaphase/transform.py and src/flye_consensus.py), together with
theorems settling the frozen claims about it.

Conventions used throughout:
* Python `int` is `Int` (or `Nat` where the source value is a count),
  Python `float` thresholds and coverages are `ℚ`, Python floor division
  `//` is `Int.fdiv`.
* Python dictionaries whose iteration order matters are modelled as an
  explicit ordered key list plus a lookup function.
* Configuration constants imported from `metaphase.params`
  (`start_end_gap`, `strong_cluster_min_reads`, `parental_min_len`,
  `parental_min_coverage`) are not in the shown sources; they are taken
  as parameters of the embedded functions.
-/

namespace MetaPhase

/-- Per-(edge, cluster) record `cons[i]`: fields `Start`, `Stop`, `Cov`
(transform.py, produced by `build_data_cons`). -/
structure ClusterInfo where
  start : Int
  stop : Int
  cov : ℚ
deriving DecidableEq, Repr

/-! ### change_cov (transform.py lines 357-369) and the Phase 1 removal
decision (transform.py lines 548-554) -/

/-- The integer positions `range(cons[i]["Start"], cons[i]["Stop"])`
appended to `len_cl` for one cluster in `change_cov`. -/
def intervalPoints (c : ClusterInfo) : List Int :=
  (List.range (c.stop - c.start).toNat).map (fun k => c.start + k)

/-- `len(set(len_cl))` in `change_cov`: the number of distinct integer
positions covered by the `othercl` clusters' intervals. -/
def unionLen (cons : Nat → ClusterInfo) (othercl : List Nat) : Nat :=
  ((othercl.flatMap (fun i => intervalPoints (cons i))).dedup).length

/-- Embedding of `change_cov(g, edge, cons, ln, clusters, othercl)`.
Returns the coverage value `cov/ln` written to the segment depth and the
boolean saying whether `edge` was appended to `remove_clusters` (true
exactly when `len(set(len_cl))/ln < parental_min_len` and
`len(clusters)-len(othercl) != 0`). -/
def changeCov (parentalMinLen : ℚ) (ln : Nat) (cons : Nat → ClusterInfo)
    (clusters othercl : List Nat) : ℚ × Bool :=
  let cov : ℚ := othercl.foldl
    (fun acc i => acc + (cons i).cov * (((cons i).stop - (cons i).start : Int) : ℚ)) 0
  let flag : Bool := decide ((unionLen cons othercl : ℚ) / (ln : ℚ) < parentalMinLen) &&
    decide (((clusters.length : Int) - othercl.length) ≠ 0)
  (cov / (ln : ℚ), flag)

/-- Embedding of the Phase 1 decision right after `change_cov`
(transform.py lines 548-554): `edge` is appended to `remove_clusters`
iff `parental_min_coverage < 6 and len(clusters) - len(othercl) != 0`;
the computed `new_cov` is received but never consulted, exactly as in
the source. -/
def phaseOneRemoveDecision (parentalMinCoverage : ℚ) (newCov : ℚ)
    (clusters othercl : List Nat) : Bool :=
  decide (parentalMinCoverage < 6) &&
    decide (((clusters.length : Int) - othercl.length) ≠ 0)

/-- Concrete cluster table for the C1/C2 theorems: cluster 2 covers
[0, 20) with coverage 10; all other ids are degenerate. -/
def consEx1 : Nat → ClusterInfo := fun i => if i = 2 then ⟨0, 20, 10⟩ else ⟨0, 0, 0⟩

/-- C1 (code bug): with `parental_min_coverage = 10`, clusters `[1, 2]`,
background clusters `[2]`, edge length 100 and cluster 2 of coverage 10
on [0, 20), the overall estimated coverage is 2, which is below the
threshold 10, and one cluster was phased out; the claim says the edge is
then added to the removal set, but the code's test
`parental_min_coverage < 6` ignores the computed coverage, so neither
`change_cov` (union fraction 1/5 is not below `parental_min_len = 1/10`)
nor the Phase 1 decision marks the edge. -/
theorem change_cov_decision_ignores_coverage :
    (changeCov (1/10) 100 consEx1 [1, 2] [2]).1 = 2 ∧
    (changeCov (1/10) 100 consEx1 [1, 2] [2]).1 < 10 ∧
    (([1, 2].length : Int) - [2].length ≠ 0) ∧
    (changeCov (1/10) 100 consEx1 [1, 2] [2]).2 = false ∧
    phaseOneRemoveDecision 10 ((changeCov (1/10) 100 consEx1 [1, 2] [2]).1)
      [1, 2] [2] = false := by
  have h : unionLen consEx1 [2] = 20 := by decide
  have hcov : (changeCov (1/10) 100 consEx1 [1, 2] [2]).1 = 2 := by
    norm_num [changeCov, consEx1]
  refine ⟨hcov, ?_, by decide, ?_, ?_⟩
  · rw [hcov]; norm_num
  · norm_num [changeCov, h]
  · norm_num [phaseOneRemoveDecision]

/-- Concrete cluster table for the C2 counterexample: a single cluster 1
covering only [0, 10) of a length-100 edge. -/
def consEx2 : Nat → ClusterInfo := fun i => if i = 1 then ⟨0, 10, 5⟩ else ⟨0, 0, 0⟩

/-- C2 counterexample: with `othercl` equal to the whole cluster set
`[1]` and the single cluster covering only a 1/10 fraction of the edge
(below the configured minimum 1/2), `change_cov` does NOT add the edge
to the removal set, because the second conjunct
`len(clusters) - len(othercl) != 0` fails. -/
theorem change_cov_no_removal_when_nothing_phased :
    ((unionLen consEx2 [1] : ℚ) / (100 : ℚ) < 1/2) ∧
    (changeCov (1/2) 100 consEx2 [1] [1]).2 = false := by
  have h : unionLen consEx2 [1] = 10 := by decide
  constructor
  · rw [h]; norm_num
  · norm_num [changeCov, h]

/-- C2 amended: `change_cov` adds the edge to the removal set exactly
when the union of the `othercl` intervals covers less than the
`parental_min_len` fraction of the edge length AND at least one cluster
was phased out (`len(clusters) != len(othercl)`). -/
theorem change_cov_marks_removal_of_thin_backbone
    (parentalMinLen : ℚ) (ln : Nat) (cons : Nat → ClusterInfo)
    (clusters othercl : List Nat)
    (hfrac : (unionLen cons othercl : ℚ) / (ln : ℚ) < parentalMinLen)
    (hphased : ((clusters.length : Int) - othercl.length) ≠ 0) :
    (changeCov parentalMinLen ln cons clusters othercl).2 = true := by
  simp only [changeCov, Bool.and_eq_true, decide_eq_true_eq]
  exact ⟨hfrac, hphased⟩

/-- Witness for `change_cov_marks_removal_of_thin_backbone` at the
concrete input of the C2 counterexample but with cluster 2 absent from
`othercl`. -/
theorem change_cov_marks_removal_witness :
    ((unionLen consEx1 [2] : ℚ) / (100 : ℚ) < 1/2) ∧
    ((([1, 2] : List Nat).length : Int) - ([2] : List Nat).length ≠ 0) ∧
    (changeCov (1/2) 100 consEx1 [1, 2] [2]).2 = true := by
  have h : unionLen consEx1 [2] = 20 := by decide
  have h1 : (unionLen consEx1 [2] : ℚ) / (100 : ℚ) < 1/2 := by rw [h]; norm_num
  exact ⟨h1, by decide, change_cov_marks_removal_of_thin_backbone _ _ _ _ _ h1 (by decide)⟩

/-! ### strong_tail (transform.py lines 423-441) -/

/-- One read's alignment extent on the edge: `data[read]["Start"]`,
`data[read]["Stop"]`. -/
structure ReadSpan where
  start : Int
  stop : Int
deriving DecidableEq, Repr

/-- Embedding of `strong_tail(cluster, cl, ln, data)` applied to the
list of spans of the cluster's reads. `count_start` stays `None` when no
read qualifies, so the result components are
`count != None and count > strong_cluster_min_reads`. -/
def strongTail (reads : List ReadSpan) (ln gap minReads : Int) : Bool × Bool :=
  let cs := (reads.filter (fun r => r.start < gap)).length
  let ss := (reads.filter (fun r => r.stop > ln - gap)).length
  (decide (cs ≠ 0 ∧ (cs : Int) > minReads), decide (ss ≠ 0 ∧ (ss : Int) > minReads))

/-- Reads for the C9 counterexample: exactly two reads start inside the
left margin [0, 5). -/
def readsEx9 : List ReadSpan := [⟨0, 50⟩, ⟨1, 60⟩, ⟨7, 70⟩]

/-- C9 counterexample: with `strong_cluster_min_reads = 2` and exactly 2
reads starting within the left margin — a count that equals the
configured minimum — `strong_tail` reports the left tail as weak,
because the source tests `count_start > strong_cluster_min_reads`
strictly, not `>=` as the claim states. -/
theorem strong_tail_false_at_exact_minimum :
    ((readsEx9.filter (fun r => r.start < 5)).length = 2) ∧
    ((2 : Int) ≥ 2) ∧
    (strongTail readsEx9 100 5 2).1 = false := by
  refine ⟨by decide, by decide, by decide⟩

/-- C9 amended: a tail is reported strong when the count of qualifying
reads STRICTLY exceeds the configured minimum: if more than
`strong_cluster_min_reads` reads start within the left margin the left
test returns true, and likewise for reads ending within the right
margin and the right test. -/
theorem strong_tail_true_above_minimum (reads : List ReadSpan) (ln gap minReads : Int)
    (hmin : 0 ≤ minReads) :
    ((((reads.filter (fun r => r.start < gap)).length : Int) > minReads →
      (strongTail reads ln gap minReads).1 = true) ∧
     (((reads.filter (fun r => r.stop > ln - gap)).length : Int) > minReads →
      (strongTail reads ln gap minReads).2 = true)) := by
  constructor
  · intro h
    simp only [strongTail, decide_eq_true_eq]
    refine ⟨?_, h⟩
    intro h0
    rw [h0] at h
    exact absurd (lt_of_le_of_lt hmin h) (by norm_num)
  · intro h
    simp only [strongTail, decide_eq_true_eq]
    refine ⟨?_, h⟩
    intro h0
    rw [h0] at h
    exact absurd (lt_of_le_of_lt hmin h) (by norm_num)

/-- Witness for `strong_tail_true_above_minimum`: three reads start in
the left margin and three end in the right margin, with minimum 2. -/
theorem strong_tail_true_above_minimum_witness :
    ((0 : Int) ≤ 2) ∧
    ((([⟨0, 99⟩, ⟨1, 98⟩, ⟨2, 97⟩] : List ReadSpan).filter
        (fun r => r.start < 5)).length = 3) ∧
    (strongTail [⟨0, 99⟩, ⟨1, 98⟩, ⟨2, 97⟩] 100 5 2).1 = true ∧
    (strongTail [⟨0, 99⟩, ⟨1, 98⟩, ⟨2, 97⟩] 100 5 2).2 = true := by
  refine ⟨by decide, by decide, ?_, ?_⟩
  · exact (strong_tail_true_above_minimum [⟨0, 99⟩, ⟨1, 98⟩, ⟨2, 97⟩] 100 5 2
      (by decide)).1 (by decide)
  · exact (strong_tail_true_above_minimum [⟨0, 99⟩, ⟨1, 98⟩, ⟨2, 97⟩] 100 5 2
      (by decide)).2 (by decide)

/-! ### Handling of the unclustered sentinel cluster 0
(transform.py lines 471-478) -/

/-- One row of the read-to-cluster table `cl`: the `Cluster` column.
`na` is the string value NA, `id n` an integer cluster id. -/
inductive ClusterVal
  | na : ClusterVal
  | id : Nat → ClusterVal
deriving DecidableEq, Repr

/-- Number of table rows whose cluster id is `0`:
`len(cl.loc[cl['Cluster'] == 0, 'Cluster'].values)`. -/
def zeroCount (table : List ClusterVal) : Nat :=
  (table.filter (fun v => v = ClusterVal.id 0)).length

/-- Sorted insertion used for `sorted(...)`. -/
def insertAsc (n : Nat) : List Nat → List Nat
  | [] => [n]
  | x :: xs => if x ≤ n then x :: insertAsc n xs else n :: x :: xs

/-- `sorted` over a list of distinct ids. -/
def sortAsc (l : List Nat) : List Nat := l.foldl (fun acc n => insertAsc n acc) []

/-- Embedding of transform.py lines 471-478: if strictly more than 10
rows carry cluster id 0, relabel those rows to 1000000; then build
`clusters = sorted(set(ids except NA))` and remove 0 from it (the
`try/except` around `clusters.remove(0)`). Returns the relabelled table
and the final cluster id list. -/
def processZeroCluster (table : List ClusterVal) : List ClusterVal × List Nat :=
  let table2 := if zeroCount table > 10 then
      table.map (fun v => if v = ClusterVal.id 0 then ClusterVal.id 1000000 else v)
    else table
  let ids := table2.filterMap (fun v => match v with
    | ClusterVal.na => none
    | ClusterVal.id n => some n)
  let clusters := sortAsc ids.dedup
  (table2, clusters.erase 0)

lemma mem_insertAsc {a n : Nat} {l : List Nat} :
    a ∈ insertAsc n l ↔ a = n ∨ a ∈ l := by
  induction l with
  | nil => simp [insertAsc]
  | cons x xs ih =>
    simp only [insertAsc]
    by_cases h : x ≤ n
    · simp only [if_pos h, List.mem_cons, ih]
      tauto
    · simp only [if_neg h, List.mem_cons]

lemma mem_sortAsc_core {a : Nat} :
    ∀ {l acc : List Nat}, a ∈ l.foldl (fun acc n => insertAsc n acc) acc ↔ a ∈ l ∨ a ∈ acc := by
  intro l
  induction l with
  | nil => simp
  | cons x xs ih =>
    intro acc
    simp only [List.foldl_cons, ih, mem_insertAsc, List.mem_cons]
    tauto

lemma mem_sortAsc {a : Nat} {l : List Nat} : a ∈ sortAsc l ↔ a ∈ l := by
  simp [sortAsc, mem_sortAsc_core]

lemma nodup_insertAsc {n : Nat} {l : List Nat} (h : l.Nodup) (hn : n ∉ l) :
    (insertAsc n l).Nodup := by
  induction l with
  | nil => simp [insertAsc]
  | cons x xs ih =>
    simp only [insertAsc]
    rcases List.nodup_cons.mp h with ⟨hx, hxs⟩
    by_cases hle : x ≤ n
    · rw [if_pos hle]
      refine List.nodup_cons.mpr ⟨?_, ih hxs (fun hc => hn (List.mem_cons_of_mem _ hc))⟩
      rw [mem_insertAsc]
      rintro (rfl | hc)
      · exact hn (List.mem_cons_self _ _)
      · exact hx hc
    · rw [if_neg hle]
      refine List.nodup_cons.mpr ⟨?_, h⟩
      rw [List.mem_cons]
      rintro (rfl | hc)
      · exact hn (List.mem_cons_self _ _)
      · exact hn (List.mem_cons_of_mem _ hc)

lemma nodup_sortAsc_core :
    ∀ {l acc : List Nat}, (l ++ acc).Nodup →
      (l.foldl (fun acc n => insertAsc n acc) acc).Nodup := by
  intro l
  induction l with
  | nil => intro acc h; simpa using h
  | cons x xs ih =>
    intro acc h
    simp only [List.foldl_cons]
    apply ih
    rw [List.nodup_append] at h ⊢
    rcases h with ⟨hxxs, hacc, hdisj⟩
    rcases List.nodup_cons.mp hxxs with ⟨hx, hxs⟩
    refine ⟨hxs, nodup_insertAsc hacc ?_, ?_⟩
    · intro hc
      exact (hdisj (List.mem_cons_self _ _)) hc
    · intro a ha hb
      rw [mem_insertAsc] at hb
      rcases hb with rfl | hb
      · exact hx ha
      · exact (hdisj (List.mem_cons_of_mem _ ha)) hb

lemma nodup_sortAsc {l : List Nat} (h : l.Nodup) : (sortAsc l).Nodup := by
  apply nodup_sortAsc_core
  simpa using h

/-- C10: for a read-to-cluster table, if more than 10 rows are assigned
the unclustered sentinel 0, those rows are relabelled to the ordinary id
1000000, which then belongs to the edge's cluster list like any other
id, and 0 does not; if 10 or fewer rows carry 0, the table is untouched
and 0 is simply dropped from the cluster list, which otherwise contains
exactly the non-NA ids. -/
theorem unclustered_reads_reassignment (table : List ClusterVal) :
    (zeroCount table > 10 →
      (∀ v ∈ (processZeroCluster table).1, v ≠ ClusterVal.id 0) ∧
      (ClusterVal.id 0 ∈ table → (1000000 : Nat) ∈ (processZeroCluster table).2) ∧
      (0 : Nat) ∉ (processZeroCluster table).2) ∧
    (zeroCount table ≤ 10 →
      (processZeroCluster table).1 = table ∧
      (0 : Nat) ∉ (processZeroCluster table).2 ∧
      (∀ n : Nat, n ≠ 0 → (n ∈ (processZeroCluster table).2 ↔ ClusterVal.id n ∈ table))) := by
  have hdn : ∀ t : List ClusterVal, (sortAsc (t.filterMap (fun v => match v with
      | ClusterVal.na => none
      | ClusterVal.id n => some n)).dedup).Nodup := by
    intro t
    exact nodup_sortAsc (List.nodup_dedup _)
  have hmem : ∀ (t : List ClusterVal) (n : Nat),
      n ∈ sortAsc (t.filterMap (fun v => match v with
        | ClusterVal.na => none
        | ClusterVal.id m => some m)).dedup ↔ ClusterVal.id n ∈ t := by
    intro t n
    rw [mem_sortAsc, List.mem_dedup, List.mem_filterMap]
    constructor
    · rintro ⟨v, hv, hmap⟩
      cases v with
      | na => simp at hmap
      | id m =>
        simp only [Option.some.injEq] at hmap
        rwa [hmap] at hv
    · intro h
      exact ⟨ClusterVal.id n, h, rfl⟩
  constructor
  · intro hgt
    have htab : (processZeroCluster table).1 =
        table.map (fun v => if v = ClusterVal.id 0 then ClusterVal.id 1000000 else v) := by
      simp only [processZeroCluster, if_pos hgt]
    refine ⟨?_, ?_, ?_⟩
    · intro v hv
      rw [htab, List.mem_map] at hv
      rcases hv with ⟨w, _, rfl⟩
      by_cases hw : w = ClusterVal.id 0 <;> simp [hw]
    · intro h0
      have : ClusterVal.id 1000000 ∈ (processZeroCluster table).1 := by
        rw [htab, List.mem_map]
        exact ⟨ClusterVal.id 0, h0, by simp⟩
      show (1000000 : Nat) ∈ (sortAsc _).erase 0
      rw [List.mem_erase_of_ne (by norm_num), hmem]
      simpa only [processZeroCluster, if_pos hgt] using this
    · show (0 : Nat) ∉ (sortAsc _).erase 0
      exact (hdn _).not_mem_erase
  · intro hle
    have hnot : ¬ zeroCount table > 10 := not_lt.mpr hle
    refine ⟨by simp only [processZeroCluster, if_neg hnot], ?_, ?_⟩
    · show (0 : Nat) ∉ (sortAsc _).erase 0
      exact (hdn _).not_mem_erase
    · intro n hn
      show n ∈ (sortAsc _).erase 0 ↔ _
      rw [List.mem_erase_of_ne hn, hmem]
      simp only [processZeroCluster, if_neg hnot]

/-- Witness for `unclustered_reads_reassignment`: a table with eleven
0-rows and one 5-row gets relabelled, and a table with one 0-row and one
5-row keeps only cluster 5. -/
theorem unclustered_reads_reassignment_witness :
    (zeroCount (List.replicate 11 (ClusterVal.id 0) ++ [ClusterVal.id 5]) > 10 ∧
      (1000000 : Nat) ∈ (processZeroCluster
        (List.replicate 11 (ClusterVal.id 0) ++ [ClusterVal.id 5])).2) ∧
    (zeroCount [ClusterVal.id 0, ClusterVal.id 5] ≤ 10 ∧
      (0 : Nat) ∉ (processZeroCluster [ClusterVal.id 0, ClusterVal.id 5]).2) := by
  constructor
  · refine ⟨by decide, ?_⟩
    exact ((unclustered_reads_reassignment
      (List.replicate 11 (ClusterVal.id 0) ++ [ClusterVal.id 5])).1 (by decide)).2.1 (by decide)
  · refine ⟨by decide, ?_⟩
    exact ((unclustered_reads_reassignment
      [ClusterVal.id 0, ClusterVal.id 5]).2 (by decide)).2.1

/-! ### remove_nested (transform.py lines 130-152)

The adjacency graph is a node list `ns` plus a directed edge list `es`;
`nx.all_neighbors` returns predecessors and successors, so adjacency is
symmetric membership in `es`. Removing a node removes it from `ns`; a
node's neighbor list at processing time is the set of still-present
nodes adjacent to it. -/

/-- `v` is a neighbor of `u` (predecessor or successor). -/
def adjB (es : List (Nat × Nat)) (u v : Nat) : Bool :=
  decide ((u, v) ∈ es ∨ (v, u) ∈ es)

/-- `cons[u]["Start"] < cons[v]["Start"] and cons[u]["Stop"] > cons[v]["Stop"]`. -/
def strictlyContains (cons : Nat → ClusterInfo) (u v : Nat) : Bool :=
  decide ((cons u).start < (cons v).start ∧ (cons u).stop > (cons v).stop)

/-- Processing one node of `remove_nested`: every still-present neighbor
whose interval is strictly contained in `u`'s is removed. -/
def pruneStep (cons : Nat → ClusterInfo) (es : List (Nat × Nat)) (u : Nat)
    (ns : List Nat) : List Nat :=
  ns.filter (fun v => !(adjB es u v && strictlyContains cons u v))

/-- The loop of `remove_nested` over the snapshot `order` of the node
list; a node already removed raises on `nx.all_neighbors` and is
skipped. -/
def removeNestedGo (cons : Nat → ClusterInfo) (es : List (Nat × Nat)) :
    List Nat → List Nat → List Nat
  | [], ns => ns
  | u :: order, ns =>
    if u ∈ ns then removeNestedGo cons es order (pruneStep cons es u ns)
    else removeNestedGo cons es order ns

/-- Embedding of `remove_nested(G, cons)`: iterates over the snapshot
`nodes = list(G.nodes())` taken at entry. -/
def removeNested (cons : Nat → ClusterInfo) (es : List (Nat × Nat))
    (ns : List Nat) : List Nat :=
  removeNestedGo cons es ns ns

lemma removeNestedGo_subset (cons : Nat → ClusterInfo) (es : List (Nat × Nat)) :
    ∀ (order ns : List Nat), removeNestedGo cons es order ns ⊆ ns := by
  intro order
  induction order with
  | nil => intro ns; simp [removeNestedGo]
  | cons u rest ih =>
    intro ns
    simp only [removeNestedGo]
    by_cases h : u ∈ ns
    · rw [if_pos h]
      exact (ih _).trans (fun v hv => List.mem_of_mem_filter hv)
    · rw [if_neg h]
      exact ih ns

lemma removeNestedGo_clean (cons : Nat → ClusterInfo) (es : List (Nat × Nat)) :
    ∀ (order ns : List Nat) (u : Nat), u ∈ order →
      u ∈ removeNestedGo cons es order ns →
      ∀ v ∈ removeNestedGo cons es order ns,
        (adjB es u v && strictlyContains cons u v) = false := by
  intro order
  induction order with
  | nil => intro ns u hu; exact absurd hu (List.not_mem_nil u)
  | cons w rest ih =>
    intro ns u hu hmem v hv
    simp only [removeNestedGo] at hmem hv
    by_cases hw : w ∈ ns
    · rw [if_pos hw] at hmem hv
      rcases List.mem_cons.mp hu with rfl | hu'
      · have hv2 : v ∈ pruneStep cons es u ns :=
          removeNestedGo_subset cons es _ _ hv
        have hpred := List.of_mem_filter hv2
        cases h3 : adjB es u v && strictlyContains cons u v
        · rfl
        · rw [h3] at hpred
          simp at hpred
      · exact ih _ u hu' hmem v hv
    · rw [if_neg hw] at hmem hv
      rcases List.mem_cons.mp hu with rfl | hu'
      · exact absurd (removeNestedGo_subset cons es _ _ hmem) hw
      · exact ih _ u hu' hmem v hv

lemma removeNestedGo_id (cons : Nat → ClusterInfo) (es : List (Nat × Nat)) :
    ∀ (order ns : List Nat),
      (∀ u ∈ order, ∀ v ∈ ns, (adjB es u v && strictlyContains cons u v) = false) →
      removeNestedGo cons es order ns = ns := by
  intro order
  induction order with
  | nil => intro ns _; rfl
  | cons w rest ih =>
    intro ns h
    have hstep : pruneStep cons es w ns = ns := by
      apply List.filter_eq_self.mpr
      intro v hv
      simp [h w (List.mem_cons_self _ _) v hv]
    simp only [removeNestedGo]
    by_cases hw : w ∈ ns
    · rw [if_pos hw, hstep]
      exact ih _ (fun u hu v hv => h u (List.mem_cons_of_mem _ hu) v hv)
    · rw [if_neg hw]
      exact ih _ (fun u hu v hv => h u (List.mem_cons_of_mem _ hu) v hv)

/-- C8: nested-interval pruning is idempotent — applying `remove_nested`
to its own result changes nothing (so in particular the node set is the
same after one and after two passes). -/
theorem remove_nested_idempotent (cons : Nat → ClusterInfo) (es : List (Nat × Nat))
    (ns : List Nat) :
    removeNested cons es (removeNested cons es ns) = removeNested cons es ns := by
  unfold removeNested
  apply removeNestedGo_id
  intro u hu v hv
  exact removeNestedGo_clean cons es ns ns u
    (removeNestedGo_subset cons es ns ns hu) hu v hv

/-! ### flye_consensus temporary-file handling (src/flye_consensus.py
lines 52-113) -/

/-- The temporary per-call artifacts of one `flye_consensus` call:
`cluster_N_reads.bam`, its sorted variant and index, the cut-edge fasta
`output/EDGE-clusterN.fa`, and the polisher output directory
`output/flye_consensus_EDGE_N`. -/
inductive TempArtifact
  | readsBam : TempArtifact
  | readsSortedBam : TempArtifact
  | readsSortedBai : TempArtifact
  | cutFasta : TempArtifact
  | polishOutDir : TempArtifact
deriving DecidableEq, Repr

/-- Embedding of the file-creation/deletion trace of `flye_consensus`:
the function writes the reads BAM, the cut fasta, the sorted BAM and its
index, then runs the polisher. `polishOk = false` models the
`subprocess.CalledProcessError` branch, which returns immediately; only
the success continuation reaches the `os.remove`/`shutil.rmtree` block.
The returned list holds the artifacts still existing on return. -/
def flyeConsensusFiles (polishOk : Bool) : List TempArtifact :=
  let afterSetup := [TempArtifact.readsBam, TempArtifact.cutFasta,
    TempArtifact.readsSortedBam, TempArtifact.readsSortedBai]
  if polishOk then
    let afterPolish := afterSetup ++ [TempArtifact.polishOutDir]
    ((((afterPolish.erase TempArtifact.cutFasta).erase TempArtifact.readsBam).erase
      TempArtifact.readsSortedBam).erase TempArtifact.readsSortedBai).erase
      TempArtifact.polishOutDir
  else afterSetup

/-- C5 counterexample: on the polishing-failure exit path the four
already-created temporary files are all still present when
`flye_consensus` returns — the cleanup block is unreachable from the
`except subprocess.CalledProcessError` early return. -/
theorem flye_consensus_failure_path_leaks_files :
    flyeConsensusFiles false = [TempArtifact.readsBam, TempArtifact.cutFasta,
      TempArtifact.readsSortedBam, TempArtifact.readsSortedBai] ∧
    TempArtifact.readsBam ∈ flyeConsensusFiles false := by
  decide

/-- C5 amended: only the success exit path of `flye_consensus` deletes
the temporary per-call files (and then it deletes all of them); the
polishing-failure path returns early and leaves every created file in
place. -/
theorem flye_consensus_success_path_cleans_up :
    flyeConsensusFiles true = [] ∧
    flyeConsensusFiles false ≠ [] := by
  decide

/-! ### cluster_distance_via_alignment (src/flye_consensus.py lines
122-154) -/

/-- The `{'consensus','start','end'}` dictionary returned by
`flye_consensus`. -/
structure ConsensusResult where
  seq : List Char
  start : Int
  stop : Int
deriving DecidableEq, Repr

/-- Needleman-Wunsch global alignment score with match +1, mismatch -1,
gap -1 (the `Bio.Align.PairwiseAligner` configuration of
`cluster_distance_via_alignment`), with explicit recursion fuel so the
definition is structural. With fuel at least `xs.length + ys.length` the
zero-fuel fallback is unreachable. -/
def nwF : Nat → List Char → List Char → Int
  | _, [], ys => -(ys.length : Int)
  | _, x :: xs, [] => -((x :: xs).length : Int)
  | 0, _ :: _, _ :: _ => 0
  | f + 1, x :: xs, y :: ys =>
      max (max ((if x = y then 1 else -1) + nwF f xs ys)
        (-1 + nwF f xs (y :: ys))) (-1 + nwF f (x :: xs) ys)

/-- Best global-alignment score of two sequences. -/
def nwScore (xs ys : List Char) : Int := nwF (xs.length + ys.length) xs ys

/-- Python slice `seq[a:b]` for `0 ≤ a` (the only case reached by the
clipping in `cluster_distance_via_alignment`). -/
def pyClip (seq : List Char) (a b : Int) : List Char :=
  (seq.drop a.toNat).take (b.toNat - a.toNat)

/-- Embedding of `cluster_distance_via_alignment` applied to the two
consensus dictionaries: clips both consensus sequences to the
intersection of their intervals, returns the sentinel 1 when the
intersection is shorter than 1 or a clipped sequence is empty, and
otherwise `1 - score / intersection_length`. -/
def clusterDistance (c1 c2 : ConsensusResult) : ℚ :=
  let iStart := max c1.start c2.start
  let iEnd := min c1.stop c2.stop
  let a := pyClip c1.seq (iStart - c1.start) (iEnd - c1.start)
  let b := pyClip c2.seq (iStart - c2.start) (iEnd - c2.start)
  if iEnd - iStart < 1 ∨ a.length = 0 ∨ b.length = 0 then 1
  else 1 - (nwScore a b : ℚ) / ((iEnd - iStart : Int) : ℚ)

lemma nwF_le : ∀ (f : Nat) (xs ys : List Char),
    nwF f xs ys ≤ min (xs.length : Int) (ys.length : Int) := by
  intro f
  induction f with
  | zero =>
    intro xs ys
    cases xs with
    | nil => simp only [nwF, List.length_nil]; omega
    | cons x xs =>
      cases ys with
      | nil => simp only [nwF, List.length_nil, List.length_cons]; omega
      | cons y ys => simp only [nwF, List.length_cons]; push_cast; omega
  | succ f ih =>
    intro xs ys
    cases xs with
    | nil => simp only [nwF, List.length_nil]; omega
    | cons x xs =>
      cases ys with
      | nil => simp only [nwF, List.length_nil, List.length_cons]; omega
      | cons y ys =>
        have h1 := ih xs ys
        have h2 := ih xs (y :: ys)
        have h3 := ih (x :: xs) ys
        simp only [nwF, List.length_cons] at *
        by_cases hxy : x = y
        · rw [if_pos hxy]
          push_cast at *
          omega
        · rw [if_neg hxy]
          push_cast at *
          omega

lemma nwF_ge : ∀ (f : Nat) (xs ys : List Char),
    -(max (xs.length : Int) (ys.length : Int)) ≤ nwF f xs ys := by
  intro f
  induction f with
  | zero =>
    intro xs ys
    cases xs with
    | nil => simp only [nwF, List.length_nil]; omega
    | cons x xs =>
      cases ys with
      | nil => simp only [nwF, List.length_nil, List.length_cons]; omega
      | cons y ys => simp only [nwF, List.length_cons]; push_cast; omega
  | succ f ih =>
    intro xs ys
    cases xs with
    | nil => simp only [nwF, List.length_nil]; omega
    | cons x xs =>
      cases ys with
      | nil => simp only [nwF, List.length_nil, List.length_cons]; omega
      | cons y ys =>
        have h1 := ih xs ys
        simp only [nwF, List.length_cons] at *
        by_cases hxy : x = y
        · rw [if_pos hxy]
          push_cast at *
          omega
        · rw [if_neg hxy]
          push_cast at *
          omega

lemma nwScore_le (xs ys : List Char) :
    nwScore xs ys ≤ min (xs.length : Int) (ys.length : Int) := nwF_le _ xs ys

lemma nwScore_ge (xs ys : List Char) :
    -(max (xs.length : Int) (ys.length : Int)) ≤ nwScore xs ys := nwF_ge _ xs ys

/-- C6 counterexample: two disagreeing one-base consensus sequences over
the same unit interval give distance `1 - (-1)/1 = 2`, outside the
claimed interval [0, 1]. -/
theorem cluster_distance_exceeds_one :
    clusterDistance ⟨['A'], 0, 1⟩ ⟨['C'], 0, 1⟩ = 2 ∧
    ¬ clusterDistance ⟨['A'], 0, 1⟩ ⟨['C'], 0, 1⟩ ≤ 1 := by
  have hnw : nwScore ['A'] ['C'] = -1 := by decide
  have h2 : clusterDistance ⟨['A'], 0, 1⟩ ⟨['C'], 0, 1⟩ = 2 := by
    simp only [clusterDistance, pyClip]
    norm_num [hnw]
  exact ⟨h2, by rw [h2]; norm_num⟩

/-- C6 amended: the consensus distance always lies in the closed
interval [0, 2]: the degenerate-overlap sentinel is 1, and in the
alignment branch the best score `s` of the clipped sequences satisfies
`-L ≤ s ≤ L` for the intersection length `L ≥ 1`, so `1 - s/L ∈ [0, 2]`
(the upper bound 2 is attained, see the counterexample). -/
theorem cluster_distance_bounds (c1 c2 : ConsensusResult) :
    0 ≤ clusterDistance c1 c2 ∧ clusterDistance c1 c2 ≤ 2 := by
  simp only [clusterDistance]
  split
  · norm_num
  · rename_i hcond
    push_neg at hcond
    obtain ⟨hL, ha, hb⟩ := hcond
    have h2a : c1.start ≤ max c1.start c2.start := le_max_left _ _
    have h2b : c2.start ≤ max c1.start c2.start := le_max_right _ _
    revert hL ha hb h2a h2b
    generalize max c1.start c2.start = iS
    generalize min c1.stop c2.stop = iE
    intro hL ha hb h2a h2b
    have h1a : (pyClip c1.seq (iS - c1.start) (iE - c1.start)).length ≤
        (iE - c1.start).toNat - (iS - c1.start).toNat := by
      rw [pyClip]
      exact List.length_take_le _ _
    have h1b : (pyClip c2.seq (iS - c2.start) (iE - c2.start)).length ≤
        (iE - c2.start).toNat - (iS - c2.start).toNat := by
      rw [pyClip]
      exact List.length_take_le _ _
    have halen : ((pyClip c1.seq (iS - c1.start) (iE - c1.start)).length : Int) ≤
        iE - iS := by omega
    have hblen : ((pyClip c2.seq (iS - c2.start) (iE - c2.start)).length : Int) ≤
        iE - iS := by omega
    have hL1 : (1 : Int) ≤ iE - iS := by omega
    have hsu : nwScore (pyClip c1.seq (iS - c1.start) (iE - c1.start))
        (pyClip c2.seq (iS - c2.start) (iE - c2.start)) ≤ iE - iS :=
      le_trans (nwScore_le _ _) (le_trans (min_le_left _ _) halen)
    have hsl : -(iE - iS) ≤ nwScore (pyClip c1.seq (iS - c1.start) (iE - c1.start))
        (pyClip c2.seq (iS - c2.start) (iE - c2.start)) :=
      le_trans (neg_le_neg (max_le halen hblen)) (nwScore_ge _ _)
    have hLQ : (0 : ℚ) < ((iE - iS : Int) : ℚ) := by
      exact_mod_cast lt_of_lt_of_le Int.one_pos hL1
    constructor
    · have hdiv : ((nwScore (pyClip c1.seq (iS - c1.start) (iE - c1.start))
          (pyClip c2.seq (iS - c2.start) (iE - c2.start)) : Int) : ℚ) /
          ((iE - iS : Int) : ℚ) ≤ 1 := by
        rw [div_le_one hLQ]
        exact_mod_cast hsu
      linarith
    · have hdiv : (-1 : ℚ) ≤ ((nwScore (pyClip c1.seq (iS - c1.start) (iE - c1.start))
          (pyClip c2.seq (iS - c2.start) (iE - c2.start)) : Int) : ℚ) /
          ((iE - iS : Int) : ℚ) := by
        rw [le_div_iff₀ hLQ]
        have hc : ((-(iE - iS) : Int) : ℚ) ≤
            ((nwScore (pyClip c1.seq (iS - c1.start) (iE - c1.start))
              (pyClip c2.seq (iS - c2.start) (iE - c2.start)) : Int) : ℚ) := by
          exact_mod_cast hsl
        push_cast at hc ⊢
        linarith
      linarith

/-! ### The memoized Consensus Provider (Modelled from the spec)

The class `FlyeConsensus` imported by transform.py from
`metaphase.flye_consensus` is not among the shown sources; only its
callers are (`transform_main` constructs it with a `consensus_dict`
cache loaded from disk, and every consensus request goes through it).
The cache below is modelled from the spec: a mapping keyed by
`(edge, cluster)` in which each key is computed at most once and later
requests return the stored result. -/

/-- Modelled from the spec: the state of the Consensus Provider — the
`consensus_dict` cache plus a counter of external consensus
computations performed so far. -/
structure CacheState where
  cache : List ((String × Nat) × ConsensusResult)
  computeCount : Nat
deriving DecidableEq, Repr

/-- Cache lookup by `(edge, cluster)` key. -/
def lookupKey (c : List ((String × Nat) × ConsensusResult)) (k : String × Nat) :
    Option ConsensusResult :=
  (c.find? (fun p => p.1 = k)).map (fun p => p.2)

/-- Modelled from the spec: one consensus request. A cache hit returns
the stored result and leaves the state unchanged; a miss performs the
external computation `compute`, stores it, and bumps the counter. -/
def requestConsensus (compute : String × Nat → ConsensusResult)
    (s : CacheState) (k : String × Nat) : ConsensusResult × CacheState :=
  match lookupKey s.cache k with
  | some r => (r, s)
  | none => (compute k, ⟨(k, compute k) :: s.cache, s.computeCount + 1⟩)

/-- A whole run: the sequence of consensus requests issued, e.g. the two
requests per `cluster_distance_via_alignment` call. -/
def runRequests (compute : String × Nat → ConsensusResult) :
    CacheState → List (String × Nat) → CacheState
  | s, [] => s
  | s, k :: ks => runRequests compute (requestConsensus compute s k).2 ks

lemma lookupKey_eq_none_iff (c : List ((String × Nat) × ConsensusResult))
    (k : String × Nat) :
    lookupKey c k = none ↔ k ∉ c.map Prod.fst := by
  simp only [lookupKey, Option.map_eq_none', List.find?_eq_none, List.mem_map,
    decide_eq_true_eq]
  constructor
  · rintro h ⟨p, hp, rfl⟩
    exact h p hp rfl
  · intro h p hp hk
    exact h ⟨p, hp, hk⟩

lemma runRequests_inv (compute : String × Nat → ConsensusResult) :
    ∀ (ks : List (String × Nat)) (s : CacheState),
      s.computeCount = s.cache.length →
      (s.cache.map Prod.fst).Nodup →
      (runRequests compute s ks).computeCount = (runRequests compute s ks).cache.length ∧
      ((runRequests compute s ks).cache.map Prod.fst).Nodup ∧
      (∀ k, k ∈ (runRequests compute s ks).cache.map Prod.fst ↔
        k ∈ ks ∨ k ∈ s.cache.map Prod.fst) := by
  intro ks
  induction ks with
  | nil =>
    intro s h1 h2
    exact ⟨h1, h2, fun k => by simp [runRequests]⟩
  | cons k ks ih =>
    intro s h1 h2
    simp only [runRequests, requestConsensus]
    cases hl : lookupKey s.cache k with
    | some r =>
      have hk : k ∈ s.cache.map Prod.fst := by
        by_contra hc
        rw [← lookupKey_eq_none_iff] at hc
        rw [hc] at hl
        exact Option.noConfusion hl
      obtain ⟨g1, g2, g3⟩ := ih s h1 h2
      refine ⟨g1, g2, fun k2 => ?_⟩
      rw [g3 k2]
      constructor
      · intro h
        rcases h with h | h
        · exact Or.inl (List.mem_cons_of_mem _ h)
        · exact Or.inr h
      · intro h
        rcases h with h | h
        · rcases List.mem_cons.mp h with rfl | h2'
          · exact Or.inr hk
          · exact Or.inl h2'
        · exact Or.inr h
    | none =>
      have hk : k ∉ s.cache.map Prod.fst := (lookupKey_eq_none_iff _ _).mp hl
      have h1' : (CacheState.mk ((k, compute k) :: s.cache) (s.computeCount + 1)).computeCount
          = (CacheState.mk ((k, compute k) :: s.cache) (s.computeCount + 1)).cache.length := by
        simp [h1]
      have h2' : ((CacheState.mk ((k, compute k) :: s.cache)
          (s.computeCount + 1)).cache.map Prod.fst).Nodup := by
        simp only [List.map_cons]
        exact List.nodup_cons.mpr ⟨hk, h2⟩
      obtain ⟨g1, g2, g3⟩ := ih _ h1' h2'
      refine ⟨g1, g2, fun k2 => ?_⟩
      rw [g3 k2]
      simp only [List.map_cons, List.mem_cons]
      tauto

/-- C7 (spec-modelled): within one run the Consensus Provider performs
the external computation at most once per `(edge, cluster)` key: after
any request sequence the number of computations equals the number of
distinct keys in the cache, the cache holds exactly the requested keys
with no duplicates, and a repeated request for any already-requested key
returns the memoized result without changing the state. -/
theorem consensus_cache_computes_once_per_key
    (compute : String × Nat → ConsensusResult) (ks : List (String × Nat)) :
    (runRequests compute ⟨[], 0⟩ ks).computeCount =
      (runRequests compute ⟨[], 0⟩ ks).cache.length ∧
    ((runRequests compute ⟨[], 0⟩ ks).cache.map Prod.fst).Nodup ∧
    (∀ k, k ∈ (runRequests compute ⟨[], 0⟩ ks).cache.map Prod.fst ↔ k ∈ ks) ∧
    (∀ k ∈ ks,
      (requestConsensus compute (runRequests compute ⟨[], 0⟩ ks) k).2 =
        runRequests compute ⟨[], 0⟩ ks) := by
  obtain ⟨g1, g2, g3⟩ := runRequests_inv compute ks ⟨[], 0⟩ (by simp) (by simp)
  refine ⟨g1, g2, fun k => by simpa using g3 k, fun k hk => ?_⟩
  have hmem : k ∈ (runRequests compute ⟨[], 0⟩ ks).cache.map Prod.fst := by
    rw [g3 k]; exact Or.inl hk
  simp only [requestConsensus]
  cases hl : lookupKey (runRequests compute ⟨[], 0⟩ ks).cache k with
  | some r => rfl
  | none =>
    rw [lookupKey_eq_none_iff] at hl
    exact absurd hmem hl

/-- Witness for `consensus_cache_computes_once_per_key`: requesting the
same key twice performs one computation and the repeated request leaves
the cache state unchanged. -/
theorem consensus_cache_computes_once_witness :
    (("e", 1) ∈ [("e", 1), ("e", 1)]) ∧
    (runRequests (fun _ => ⟨[], 0, 0⟩) ⟨[], 0⟩
      [("e", 1), ("e", 1)]).computeCount =
      (runRequests (fun _ => ⟨[], 0, 0⟩) ⟨[], 0⟩
        [("e", 1), ("e", 1)]).cache.length ∧
    (requestConsensus (fun _ => ⟨[], 0, 0⟩)
      (runRequests (fun _ => ⟨[], 0, 0⟩) ⟨[], 0⟩ [("e", 1), ("e", 1)]) ("e", 1)).2 =
      runRequests (fun _ => ⟨[], 0, 0⟩) ⟨[], 0⟩ [("e", 1), ("e", 1)] := by
  have hm : (("e", 1)) ∈ [(("e", 1)), (("e", 1))] := List.mem_cons_self _ _
  refine ⟨hm, ?_, ?_⟩
  · exact (consensus_cache_computes_once_per_key (fun _ => ⟨[], 0, 0⟩)
      [("e", 1), ("e", 1)]).1
  · exact (consensus_cache_computes_once_per_key (fun _ => ⟨[], 0, 0⟩)
      [("e", 1), ("e", 1)]).2.2.2 ("e", 1) hm

/-! ### add_path_edges cut-point resolution (transform.py lines 236-354)

`paths[edge]` is a list of discovered root-to-leaf paths (lists of
cluster ids). `cut_l`/`cut_r` are dictionaries from cluster id to
`None`-or-int, modelled as `Nat → Option Int` together with the ordered
key list. Python's `set(path_cl)` iterates small nonnegative ints in
ascending order (all cluster sets handled here stay below the CPython
hash-table size 8), which `sortAsc` reproduces; `sorted(...)` by stop
position is a stable sort, reproduced by `orderByStop`. -/

/-- `path.index(n)`: index of the first occurrence, `None` when absent
(Python raises `ValueError`, always caught by the surrounding `try`). -/
def idxOf : List Nat → Nat → Option Nat
  | [], _ => none
  | x :: xs, n => if x = n then some 0 else (idxOf xs n).map (fun i => i + 1)

/-- `path[path.index(n) + 1]`, `None` on `ValueError`/`IndexError`. -/
def succOf (p : List Nat) (n : Nat) : Option Nat :=
  match idxOf p n with
  | none => none
  | some i => p.get? (i + 1)

/-- `path[path.index(n) - 1]` guarded by `path.index(n) > 0`, `None`
when absent or at index 0. -/
def predOf (p : List Nat) (n : Nat) : Option Nat :=
  match idxOf p n with
  | none => none
  | some 0 => none
  | some (i + 1) => p.get? i

/-- `path[path.index(member) - 1]` in the unresolved-`cut_l` fallback
loop, WITHOUT the `> 0` guard: at index 0 Python evaluates `path[-1]`,
the last element. -/
def pyPredWrap (p : List Nat) (n : Nat) : Option Nat :=
  match idxOf p n with
  | none => none
  | some 0 => p.getLast?
  | some (i + 1) => p.get? i

/-- The `while Q:` worklist loop of `add_path_edges` (lines 291-311).
`qrev` is the deque with its right (pop) end first; `lAcc`, `rAcc`,
`visited` are the Python lists `L`, `R`, `visited`. Fuel makes the
recursion structural; every settled claim supplies enough fuel for the
loop to drain the queue. -/
def bfsLoop (paths : List (List Nat)) :
    Nat → List Nat → List Nat → List Nat → List Nat → List Nat × List Nat
  | 0, _, lAcc, rAcc, _ => (lAcc, rAcc)
  | fuel + 1, qrev, lAcc, rAcc, visited =>
    match qrev with
    | [] => (lAcc, rAcc)
    | n :: rest =>
      let vis := visited ++ [n]
      if n ∈ lAcc then
        let preds := (paths.filterMap (fun p => predOf p n)).filter
          (fun x => decide (x ∉ vis))
        bfsLoop paths fuel (preds.reverse ++ rest) lAcc (rAcc ++ preds) vis
      else
        let succs := (paths.filterMap (fun p => succOf p n)).filter
          (fun x => decide (x ∉ vis))
        bfsLoop paths fuel (succs.reverse ++ rest) (lAcc ++ succs) rAcc vis

/-- Python `max(list)` (the empty case raises in Python; the default 0
is never consulted by any settled claim). -/
def maxHeadI : List Int → Int
  | [] => 0
  | x :: xs => xs.foldl max x

/-- Python `min(list)`. -/
def minHeadI : List Int → Int
  | [] => 0
  | x :: xs => xs.foldl min x

/-- One iteration of the `for member in cut_l.keys():` pass (lines
275-332): if `cut_l[member]` is resolved and (`cut_r[member]` is not, or
`member` is a leaf), run the worklist traversal, compute the shared
border (the leaf's own fixed right cut, or
`max(l_borders) + (min(r_borders) - max(l_borders)) // 2`), and assign
it as `cut_l` of every collected successor and `cut_r` of every
collected predecessor. -/
def processMember (paths : List (List Nat)) (cons : Nat → ClusterInfo)
    (leafs : List Nat) (fuel : Nat)
    (st : (Nat → Option Int) × (Nat → Option Int)) (member : Nat) :
    (Nat → Option Int) × (Nat → Option Int) :=
  if (st.1 member).isSome ∧ ((st.2 member).isNone ∨ member ∈ leafs) then
    let inits := paths.filterMap (fun p => succOf p member)
    let lr := bfsLoop paths fuel inits.reverse inits [] []
    let border : Int :=
      if member ∈ leafs then (st.2 member).getD 0
      else maxHeadI (lr.1.map (fun i => (cons i).start)) +
        (minHeadI (lr.2.map (fun i => (cons i).stop)) -
          maxHeadI (lr.1.map (fun i => (cons i).start))).fdiv 2
    (fun c => if c ∈ lr.1 then some border else st.1 c,
     fun c => if c ∈ lr.2 then some border else st.2 c)
  else st

/-- Stable insertion for sorting cluster ids by `cons[i]["Stop"]`. -/
def insertByStop (cons : Nat → ClusterInfo) (n : Nat) : List Nat → List Nat
  | [] => [n]
  | m :: ms => if (cons m).stop ≤ (cons n).stop then m :: insertByStop cons n ms
    else n :: m :: ms

/-- `order_by_stop_pos` (lines 258-269): the members stably sorted by
stop position. -/
def orderByStop (cons : Nat → ClusterInfo) (members : List Nat) : List Nat :=
  members.foldl (fun acc n => insertByStop cons n acc) []

/-- `cut_l` seeding (lines 251-255): a root whose start lies within the
tolerance margin starts at its own interval start. -/
def seedCutL (roots : List Nat) (cons : Nat → ClusterInfo) (gap : Int) :
    Nat → Option Int :=
  fun c => if c ∈ roots ∧ (cons c).start < gap then some (cons c).start else none

/-- `cut_r` seeding (lines 256-257): a leaf ends at `ln - 1`. -/
def seedCutR (leafs : List Nat) (ln : Int) : Nat → Option Int :=
  fun c => if c ∈ leafs then some (ln - 1) else none

/-- The fallback pass (lines 334-341): a member with unresolved `cut_l`
inherits `cut_r` of `path[path.index(member) - 1]` for each path
containing it, the last assignment winning; at index 0 Python's negative
indexing yields the path's LAST element. -/
def fallbackCutL (paths : List (List Nat)) (cutL cutR : Nat → Option Int) :
    Nat → Option Int :=
  fun c => match cutL c with
  | some v => some v
  | none =>
    match (paths.filterMap (fun p => pyPredWrap p c)).getLast? with
    | none => none
    | some pred => cutR pred

/-- The first loop of `add_path_edges` (lines 240-245): each full
cluster is removed from `paths_roots`, then from `paths_leafs`; a
`ValueError` on the first removal skips the second (`except: pass`). -/
def removeFulls (full roots leafs : List Nat) : List Nat × List Nat :=
  full.foldl (fun rl n => if n ∈ rl.1 then (rl.1.erase n, rl.2.erase n) else rl)
    (roots, leafs)

/-- The final loop (lines 343-352): members with `cut_l != cut_r` are
materialized via `add_child_edge`; the others are removed (first
occurrence) from every path and from the graph. Returns the mutated
paths and the list of materialized members. -/
def finalSplit (cutL cutR : Nat → Option Int) :
    List Nat → List (List Nat) → List Nat → List (List Nat) × List Nat
  | [], paths, mat => (paths, mat)
  | c :: cs, paths, mat =>
    if cutL c ≠ cutR c then finalSplit cutL cutR cs paths (mat ++ [c])
    else finalSplit cutL cutR cs (paths.map (fun p => p.erase c)) mat

/-- `set(path_cl)` in iteration order (small nonnegative ints ⇒
ascending). -/
def pathMembers (paths : List (List Nat)) : List Nat :=
  sortAsc ((paths.flatMap (fun p => p)).dedup)

/-- Result of the cut-point resolution of `add_path_edges`. -/
structure CutResult where
  cutL : Nat → Option Int
  cutR : Nat → Option Int
  materialized : List Nat
  pathsOut : List (List Nat)

/-- Embedding of the cut-point resolution of
`add_path_edges(edge, ...)`: remove full clusters from the anchor lists,
seed the cut dictionaries, run the single resolution pass in stop order
(the source's `while` is disabled by `if 1==1:`), run the fallback pass,
then materialize or drop each member. -/
def addPathEdges (paths : List (List Nat)) (roots leafs full : List Nat)
    (cons : Nat → ClusterInfo) (ln gap : Int) (fuel : Nat) : CutResult :=
  let rl := removeFulls full roots leafs
  let members := pathMembers paths
  let order := orderByStop cons members
  let st1 := order.foldl (processMember paths cons rl.2 fuel)
    (seedCutL rl.1 cons gap, seedCutR rl.2 ln)
  let cutL := fallbackCutL paths st1.1 st1.2
  let fin := finalSplit cutL st1.2 members paths []
  ⟨cutL, st1.2, fin.2, fin.1⟩

/-- Cluster intervals for the C3 counterexample: 1:[0,40), 3:[30,55),
4:[35,80), 5:[60,100), 2:[50,100) on an edge of length 100. -/
def consEx3 : Nat → ClusterInfo := fun c =>
  if c = 1 then ⟨0, 40, 0⟩
  else if c = 2 then ⟨50, 100, 0⟩
  else if c = 3 then ⟨30, 55, 0⟩
  else if c = 4 then ⟨35, 80, 0⟩
  else ⟨60, 100, 0⟩

/-- C3 counterexample: on the two discovered paths `[1,3,2]` and
`[1,4,5,2]` with root 1 and leaf 2, the stop-ordered single resolution
pass assigns cluster 5 `cut_r = 52` (while member 3 is processed) but
later `cut_l = 70` (while member 4 is processed); cluster 5 survives
(`cut_l != cut_r`) and is materialized with `cut_l > cut_r`, violating
the claimed invariant. -/
theorem cut_resolution_violates_order :
    (addPathEdges [[1, 3, 2], [1, 4, 5, 2]] [1] [2] [] consEx3 100 5 50).cutL 5 =
      some 70 ∧
    (addPathEdges [[1, 3, 2], [1, 4, 5, 2]] [1] [2] [] consEx3 100 5 50).cutR 5 =
      some 52 ∧
    5 ∈ (addPathEdges [[1, 3, 2], [1, 4, 5, 2]] [1] [2] [] consEx3 100 5 50).materialized ∧
    ¬ (70 : Int) ≤ 52 := by
  decide

lemma finalSplit_mat (cutL cutR : Nat → Option Int) :
    ∀ (cs : List Nat) (paths : List (List Nat)) (mat : List Nat) (c : Nat),
      c ∈ (finalSplit cutL cutR cs paths mat).2 ↔
        c ∈ mat ∨ (c ∈ cs ∧ cutL c ≠ cutR c) := by
  intro cs
  induction cs with
  | nil => intro paths mat c; simp [finalSplit]
  | cons d ds ih =>
    intro paths mat c
    simp only [finalSplit]
    by_cases hd : cutL d ≠ cutR d
    · rw [if_pos hd, ih]
      by_cases hc : c = d
      · subst hc
        simp only [List.mem_append, List.mem_singleton, List.mem_cons]
        tauto
      · simp only [List.mem_append, List.mem_singleton, List.mem_cons]
        tauto
    · rw [if_neg hd, ih]
      push_neg at hd
      by_cases hc : c = d
      · subst hc
        simp only [List.mem_cons]
        constructor
        · intro h
          rcases h with h | h
          · exact Or.inl h
          · exact Or.inr ⟨Or.inr h.1, h.2⟩
        · intro h
          rcases h with h | ⟨_, hne⟩
          · exact Or.inl h
          · exact absurd hd hne
      · simp only [List.mem_cons]
        constructor
        · intro h
          rcases h with h | h
          · exact Or.inl h
          · exact Or.inr ⟨Or.inr h.1, h.2⟩
        · intro h
          rcases h with h | ⟨hm, hne⟩
          · exact Or.inl h
          · rcases hm with rfl | hm
            · exact absurd rfl hc
            · exact Or.inr ⟨hm, hne⟩

lemma finalSplit_paths_stable (cutL cutR : Nat → Option Int) :
    ∀ (cs : List Nat) (paths : List (List Nat)) (mat : List Nat) (c : Nat),
      (∀ p ∈ paths, c ∉ p) →
      ∀ p ∈ (finalSplit cutL cutR cs paths mat).1, c ∉ p := by
  intro cs
  induction cs with
  | nil => intro paths mat c h; simpa [finalSplit] using h
  | cons d ds ih =>
    intro paths mat c h
    simp only [finalSplit]
    by_cases hd : cutL d ≠ cutR d
    · rw [if_pos hd]
      exact ih paths _ c h
    · rw [if_neg hd]
      apply ih _ _ c
      intro p hp
      rw [List.mem_map] at hp
      rcases hp with ⟨q, hq, rfl⟩
      intro hcq
      exact h q hq (List.erase_subset _ _ hcq)

lemma finalSplit_removes (cutL cutR : Nat → Option Int) :
    ∀ (cs : List Nat) (paths : List (List Nat)) (mat : List Nat) (c : Nat),
      c ∈ cs → cutL c = cutR c → (∀ p ∈ paths, p.Nodup) →
      ∀ p ∈ (finalSplit cutL cutR cs paths mat).1, c ∉ p := by
  intro cs
  induction cs with
  | nil => intro paths mat c hc; exact absurd hc (List.not_mem_nil c)
  | cons d ds ih =>
    intro paths mat c hc heq hnd
    simp only [finalSplit]
    by_cases hd : cutL d ≠ cutR d
    · rw [if_pos hd]
      rcases List.mem_cons.mp hc with rfl | hcs
      · exact absurd heq hd
      · exact ih paths _ c hcs heq hnd
    · rw [if_neg hd]
      rcases List.mem_cons.mp hc with rfl | hcs
      · apply finalSplit_paths_stable
        intro p hp
        rw [List.mem_map] at hp
        rcases hp with ⟨q, hq, rfl⟩
        exact (hnd q hq).not_mem_erase
      · apply ih _ _ c hcs heq
        intro p hp
        rw [List.mem_map] at hp
        rcases hp with ⟨q, hq, rfl⟩
        exact (hnd q hq).erase _

/-- C3 amended: after cut-point resolution, a path cluster is
materialized as a child segment exactly when its final `cut_l` differs
from its final `cut_r` (with `None` values compared as Python does);
every cluster whose `cut_l` equals `cut_r` is removed from all the
edge's (duplicate-free) paths and never materialized. The original
claim's order invariants `cut_l ≤ cut_r` and `cut_r[a] = cut_l[b]` for
consecutive clusters do NOT hold in general (see the counterexample). -/
theorem cut_resolution_drops_zero_length_clusters
    (paths : List (List Nat)) (roots leafs full : List Nat)
    (cons : Nat → ClusterInfo) (ln gap : Int) (fuel : Nat) (c : Nat)
    (hnd : ∀ p ∈ paths, p.Nodup) (hc : c ∈ pathMembers paths) :
    ((addPathEdges paths roots leafs full cons ln gap fuel).cutL c =
        (addPathEdges paths roots leafs full cons ln gap fuel).cutR c →
      c ∉ (addPathEdges paths roots leafs full cons ln gap fuel).materialized ∧
      ∀ p ∈ (addPathEdges paths roots leafs full cons ln gap fuel).pathsOut, c ∉ p) ∧
    ((addPathEdges paths roots leafs full cons ln gap fuel).cutL c ≠
        (addPathEdges paths roots leafs full cons ln gap fuel).cutR c →
      c ∈ (addPathEdges paths roots leafs full cons ln gap fuel).materialized) := by
  have hmat : (addPathEdges paths roots leafs full cons ln gap fuel).materialized =
      (finalSplit (addPathEdges paths roots leafs full cons ln gap fuel).cutL
        (addPathEdges paths roots leafs full cons ln gap fuel).cutR
        (pathMembers paths) paths []).2 := rfl
  have hpat : (addPathEdges paths roots leafs full cons ln gap fuel).pathsOut =
      (finalSplit (addPathEdges paths roots leafs full cons ln gap fuel).cutL
        (addPathEdges paths roots leafs full cons ln gap fuel).cutR
        (pathMembers paths) paths []).1 := rfl
  constructor
  · intro heq
    constructor
    · rw [hmat, finalSplit_mat]
      rintro (h | ⟨_, hne⟩)
      · exact absurd h (List.not_mem_nil c)
      · exact hne heq
    · rw [hpat]
      exact finalSplit_removes _ _ _ _ _ c hc heq hnd
  · intro hne
    rw [hmat, finalSplit_mat]
    exact Or.inr ⟨hc, hne⟩

/-- Witness for `cut_resolution_drops_zero_length_clusters` on the
single path `[1, 2]`: cluster 1 is materialized since its cuts differ. -/
theorem cut_resolution_drops_witness :
    (∀ p ∈ [[1, 2]], List.Nodup p) ∧ 1 ∈ pathMembers [[1, 2]] ∧
    (addPathEdges [[1, 2]] [1] [2] [] consEx3 100 5 20).cutL 1 ≠
      (addPathEdges [[1, 2]] [1] [2] [] consEx3 100 5 20).cutR 1 ∧
    1 ∈ (addPathEdges [[1, 2]] [1] [2] [] consEx3 100 5 20).materialized := by
  refine ⟨by decide, by decide, by decide, ?_⟩
  exact (cut_resolution_drops_zero_length_clusters [[1, 2]] [1] [2] [] consEx3
    100 5 20 1 (by decide) (by decide)).2 (by decide)

/-! ### Cluster classification and the paths graph
(transform.py lines 497-515, build_paths_graph lines 74-127,
find_full_paths lines 201-213)

The adjacency graph over an edge's clusters is produced by
`build_adj_matrix_clusters` (not among the shown sources, it depends on
the consensus distance); `build_paths_graph` receives it and prunes it.
The embedding therefore takes the initial directed graph as input. -/

/-- A directed graph over cluster ids: present nodes and edge list
(edges are kept filtered to present endpoints, mirroring networkx node
removal). -/
structure PGraph where
  ns : List Nat
  es : List (Nat × Nat)
deriving DecidableEq, Repr

/-- `G.remove_edges_from(nx.selfloop_edges(G))`. -/
def removeSelfLoops (g : PGraph) : PGraph :=
  ⟨g.ns, g.es.filter (fun e => e.1 ≠ e.2)⟩

/-- `G.remove_node(n)` guarded by `try/except` (no-op when absent). -/
def removeNodeG (g : PGraph) (n : Nat) : PGraph :=
  if n ∈ g.ns then ⟨g.ns.erase n, g.es.filter (fun e => e.1 ≠ n ∧ e.2 ≠ n)⟩ else g

/-- The two `node_remove` collection loops of `build_paths_graph` (lines
91-103): a leaf with a direct edge from another leaf, or a root with a
direct edge to another root, is scheduled for removal (a simple path of
length 2 is exactly a direct edge; `all_simple_paths` yields nothing
when source equals target). -/
def twoHopRemovals (g : PGraph) (leafs roots : List Nat) : List Nat :=
  (leafs.flatMap (fun node => leafs.filterMap (fun nb =>
    if nb ≠ node ∧ (node, nb) ∈ g.es then some nb else none))) ++
  (roots.flatMap (fun node => roots.filterMap (fun nb =>
    if nb ≠ node ∧ (nb, node) ∈ g.es then some nb else none)))

/-- `remove_nested` applied to a `PGraph` (edges of removed nodes
disappear with them). -/
def removeNestedG (cons : Nat → ClusterInfo) (g : PGraph) : PGraph :=
  let ns2 := removeNested cons g.es g.ns
  ⟨ns2, g.es.filter (fun e => e.1 ∈ ns2 ∧ e.2 ∈ ns2)⟩

/-- The `node_remove` application loop (lines 106-113): remove from the
graph, then from `full_paths_roots`, then from `full_paths_leafs`; an
exception at any step skips the remaining steps of that node (so a node
absent from the roots list is not removed from the leafs list either). -/
def applyNodeRemovals : List Nat → PGraph → List Nat → List Nat →
    PGraph × List Nat × List Nat
  | [], g, roots, leafs => (g, roots, leafs)
  | n :: rest, g, roots, leafs =>
    if n ∈ g.ns then
      if n ∈ roots then
        applyNodeRemovals rest (removeNodeG g n) (roots.erase n) (leafs.erase n)
      else applyNodeRemovals rest (removeNodeG g n) roots leafs
    else applyNodeRemovals rest g roots leafs

/-- The `path_remove` collection of `build_paths_graph` (lines 115-120):
for each node and each of its neighbors (predecessor or successor),
every simple path `[node, m, neighbor]` of length 3 schedules its first
edge `(node, m)` for removal. -/
def trianglePairsToRemove (g : PGraph) : List (Nat × Nat) :=
  g.ns.flatMap (fun node =>
    (g.ns.filter (fun v => v ≠ node ∧ ((node, v) ∈ g.es ∨ (v, node) ∈ g.es))).flatMap
      (fun nb => g.ns.filterMap (fun m =>
        if m ≠ node ∧ m ≠ nb ∧ (node, m) ∈ g.es ∧ (m, nb) ∈ g.es
        then some (node, m) else none)))

/-- Applying `G.remove_edge` to every collected pair (`try/except`
around repeated removals). -/
def removeEdgesG (g : PGraph) (l : List (Nat × Nat)) : PGraph :=
  ⟨g.ns, g.es.filter (fun e => e ∉ l)⟩

/-- Embedding of `build_paths_graph`: remove self-loops and node 0,
collect the 2-hop anchor removals, prune nested intervals, apply the
collected node removals (mutating the roots/leafs lists), then remove
the first edges of length-3 triangles. Returns the pruned graph and the
mutated roots and leafs lists. -/
def buildPathsGraph (g0 : PGraph) (cons : Nat → ClusterInfo)
    (roots leafs : List Nat) : PGraph × List Nat × List Nat :=
  let g1 := removeNodeG (removeSelfLoops g0) 0
  let rem := twoHopRemovals g1 leafs roots
  let g2 := removeNestedG cons g1
  let arl := applyNodeRemovals rem g2 roots leafs
  let tri := trianglePairsToRemove arl.1
  (removeEdgesG arl.1 tri, arl.2.1, arl.2.2)

/-- Depth-first enumeration of the simple paths from the current node
`u` (visited prefix `vis`) to any target in `ts`, as
`nx.all_simple_paths` does: a path is yielded whenever a child is a
target and the search continues through it. -/
def simplePathsGo (g : PGraph) (ts : List Nat) :
    Nat → Nat → List Nat → List (List Nat)
  | 0, _, _ => []
  | fuel + 1, u, vis =>
    (g.ns.filter (fun v => decide ((u, v) ∈ g.es) && decide (v ∉ vis))).flatMap
      (fun v => (if v ∈ ts then [vis ++ [v]] else []) ++
        simplePathsGo g ts fuel v (vis ++ [v]))

/-- Embedding of `find_full_paths(G, paths_roots, paths_leafs)`:
enumerate all simple paths from each root to the leaf set.
`nx.all_simple_paths` returns an empty generator when the source is
among the targets, and a root missing from the graph contributes
nothing (its `NodeNotFound` is swallowed and the stale generator from
the previous iteration is already exhausted). -/
def findFullPaths : PGraph → List Nat → List Nat → Nat → List (List Nat)
  | _, [], _, _ => []
  | g, r :: rs, leafs, fuel =>
    (if r ∈ leafs then [] else if r ∈ g.ns then simplePathsGo g leafs fuel r [r]
      else []) ++ findFullPaths g rs leafs fuel

/-- The per-edge classification state built by the cluster loop of
`graph_create_unitigs` (lines 497-515). -/
structure EdgeClassification where
  full : List Nat
  roots : List Nat
  leafs : List Nat
  cons : Nat → ClusterInfo

/-- Embedding of the classification loop (lines 497-515): a cluster
touching both extremities with strong tails at both ends becomes a full
cluster (and is materialized immediately); a both-ends cluster with a
weak left tail has its recorded start pushed right by `gap + 1`, one
with only a weak right tail has its stop pulled left by `gap + 1`; a
cluster touching the left extremity with a strong left tail becomes a
root candidate and one touching the right extremity with a strong right
tail a leaf candidate (both tested on the pre-mutation extent). -/
def classifyClusters (clusters : List Nat) (cons0 : Nat → ClusterInfo)
    (readsOf : Nat → List ReadSpan) (ln gap minReads : Int) : EdgeClassification :=
  clusters.foldl (fun st c =>
    let clStart := (st.cons c).start
    let clStop := (st.cons c).stop
    let tl := strongTail (readsOf c) ln gap minReads
    let st1 : EdgeClassification :=
      if clStart < gap ∧ clStop > ln - gap then
        if tl.1 = true ∧ tl.2 = true then
          { st with full := st.full ++ [c] }
        else if tl.1 ≠ true then
          { st with cons := fun d => if d = c then
              ⟨(st.cons c).start + gap + 1, (st.cons c).stop, (st.cons c).cov⟩
            else st.cons d }
        else
          { st with cons := fun d => if d = c then
              ⟨(st.cons c).start, (st.cons c).stop - gap - 1, (st.cons c).cov⟩
            else st.cons d }
      else st
    let st2 := if clStart < gap ∧ tl.1 = true then
      { st1 with roots := st1.roots ++ [c] } else st1
    if clStop > ln - gap ∧ tl.2 = true then
      { st2 with leafs := st2.leafs ++ [c] } else st2)
    ⟨[], [], [], cons0⟩

/-- Cluster intervals for the C4 counterexample: 1:[0,30), 2:[1,60),
3:[2,99) on an edge of length 100 with margin 5. -/
def consEx4 : Nat → ClusterInfo := fun c =>
  if c = 1 then ⟨0, 30, 0⟩ else if c = 2 then ⟨1, 60, 0⟩ else ⟨2, 99, 0⟩

/-- Read spans for the C4 counterexample: cluster 1 has three reads
starting within the left margin (strong left tail only), cluster 2 has
two (not strong, the minimum is 2), cluster 3 has three reads starting
within the left margin and three ending within the right margin. -/
def readsEx4 : Nat → List ReadSpan := fun c =>
  if c = 1 then [⟨0, 30⟩, ⟨1, 28⟩, ⟨2, 25⟩]
  else if c = 2 then [⟨1, 60⟩, ⟨3, 55⟩]
  else [⟨2, 99⟩, ⟨3, 98⟩, ⟨4, 97⟩]

/-- C4 counterexample: cluster 3 is classified full (both extremities,
strong tails); the paths graph `1 → 2 → 3` passes every pruning step
unchanged (the full cluster is NOT excluded from it, since
`build_paths_graph` never reads its `full_clusters` argument), and path
enumeration from root 1 to leaf 3 discovers `[1, 2, 3]`, a root-to-leaf
path containing the full cluster. -/
theorem full_cluster_appears_on_discovered_path :
    3 ∈ (classifyClusters [1, 2, 3] consEx4 readsEx4 100 5 2).full ∧
    [1, 2, 3] ∈ findFullPaths
      (buildPathsGraph ⟨[1, 2, 3], [(1, 2), (2, 3)]⟩
        (classifyClusters [1, 2, 3] consEx4 readsEx4 100 5 2).cons
        (classifyClusters [1, 2, 3] consEx4 readsEx4 100 5 2).roots
        (classifyClusters [1, 2, 3] consEx4 readsEx4 100 5 2).leafs).1
      (buildPathsGraph ⟨[1, 2, 3], [(1, 2), (2, 3)]⟩
        (classifyClusters [1, 2, 3] consEx4 readsEx4 100 5 2).cons
        (classifyClusters [1, 2, 3] consEx4 readsEx4 100 5 2).roots
        (classifyClusters [1, 2, 3] consEx4 readsEx4 100 5 2).leafs).2.1
      (buildPathsGraph ⟨[1, 2, 3], [(1, 2), (2, 3)]⟩
        (classifyClusters [1, 2, 3] consEx4 readsEx4 100 5 2).cons
        (classifyClusters [1, 2, 3] consEx4 readsEx4 100 5 2).roots
        (classifyClusters [1, 2, 3] consEx4 readsEx4 100 5 2).leafs).2.2
      10 ∧
    3 ∈ ([1, 2, 3] : List Nat) := by
  decide

lemma removeFulls_cons (n : Nat) (rest roots leafs : List Nat) :
    removeFulls (n :: rest) roots leafs =
      if n ∈ roots then removeFulls rest (roots.erase n) (leafs.erase n)
      else removeFulls rest roots leafs := by
  by_cases h : n ∈ roots <;> simp [removeFulls, h]

lemma removeFulls_subset :
    ∀ (full roots leafs : List Nat),
      (removeFulls full roots leafs).1 ⊆ roots ∧
      (removeFulls full roots leafs).2 ⊆ leafs := by
  intro full
  induction full with
  | nil => intro roots leafs; exact ⟨fun a h => h, fun a h => h⟩
  | cons n rest ih =>
    intro roots leafs
    rw [removeFulls_cons]
    by_cases h : n ∈ roots
    · rw [if_pos h]
      obtain ⟨h1, h2⟩ := ih (roots.erase n) (leafs.erase n)
      exact ⟨h1.trans (List.erase_subset _ _), h2.trans (List.erase_subset _ _)⟩
    · rw [if_neg h]
      exact ih roots leafs

lemma removeFulls_clears :
    ∀ (full roots leafs : List Nat), full.Nodup → roots.Nodup → leafs.Nodup →
      (∀ c ∈ full, c ∈ roots) → (∀ c ∈ full, c ∈ leafs) →
      ∀ c ∈ full, c ∉ (removeFulls full roots leafs).1 ∧
        c ∉ (removeFulls full roots leafs).2 := by
  intro full
  induction full with
  | nil => intro roots leafs _ _ _ _ _ c hc; exact absurd hc (List.not_mem_nil c)
  | cons n rest ih =>
    intro roots leafs hf hr hl hfr hfl c hc
    rw [removeFulls_cons, if_pos (hfr n (List.mem_cons_self _ _))]
    rcases List.mem_cons.mp hc with rfl | hcr
    · obtain ⟨hs1, hs2⟩ := removeFulls_subset rest (roots.erase c) (leafs.erase c)
      exact ⟨fun h => hr.not_mem_erase (hs1 h), fun h => hl.not_mem_erase (hs2 h)⟩
    · rcases List.nodup_cons.mp hf with ⟨hn, hrest⟩
      apply ih (roots.erase n) (leafs.erase n) hrest (hr.erase n) (hl.erase n)
      · intro d hd
        exact (List.mem_erase_of_ne (fun hdn => hn (by rwa [hdn] at hd))).mpr
          (hfr d (List.mem_cons_of_mem _ hd))
      · intro d hd
        exact (List.mem_erase_of_ne (fun hdn => hn (by rwa [hdn] at hd))).mpr
          (hfl d (List.mem_cons_of_mem _ hd))
      · exact hcr

/-- C4 amended: full clusters are not excluded from the adjacency graph
or from path discovery (see the counterexample); what does hold is that
(1) when every root candidate is also a leaf candidate — in particular
on an edge where every cluster is full — `find_full_paths` discovers no
path at all, and (2) `add_path_edges` removes the full clusters from
the root and leaf candidate lists (for duplicate-free candidate lists
containing them) before cut-point resolution. -/
theorem full_clusters_anchor_removal_and_no_paths :
    (∀ (g : PGraph) (roots leafs : List Nat) (fuel : Nat),
      (∀ r ∈ roots, r ∈ leafs) → findFullPaths g roots leafs fuel = []) ∧
    (∀ (full roots leafs : List Nat), full.Nodup → roots.Nodup → leafs.Nodup →
      (∀ c ∈ full, c ∈ roots) → (∀ c ∈ full, c ∈ leafs) →
      ∀ c ∈ full, c ∉ (removeFulls full roots leafs).1 ∧
        c ∉ (removeFulls full roots leafs).2) := by
  constructor
  · intro g roots
    induction roots with
    | nil => intro leafs fuel _; rfl
    | cons r rs ih =>
      intro leafs fuel hsub
      have h1 : r ∈ leafs := hsub r (List.mem_cons_self _ _)
      simp only [findFullPaths, if_pos h1, List.nil_append]
      exact ih leafs fuel (fun a ha => hsub a (List.mem_cons_of_mem _ ha))
  · exact removeFulls_clears

/-- Witness for `full_clusters_anchor_removal_and_no_paths`: with both
clusters 1 and 2 full (roots = leafs = [1, 2]) no path is discovered,
and both are removed from the candidate lists. -/
theorem full_clusters_anchor_removal_witness :
    (∀ r ∈ [1, 2], r ∈ ([1, 2] : List Nat)) ∧
    findFullPaths ⟨[1, 2], [(1, 2)]⟩ [1, 2] [1, 2] 10 = [] ∧
    (1 ∉ (removeFulls [1, 2] [1, 2] [1, 2]).1 ∧
      1 ∉ (removeFulls [1, 2] [1, 2] [1, 2]).2) := by
  refine ⟨by decide, ?_, ?_⟩
  · exact full_clusters_anchor_removal_and_no_paths.1 ⟨[1, 2], [(1, 2)]⟩ [1, 2] [1, 2]
      10 (by decide)
  · exact full_clusters_anchor_removal_and_no_paths.2 [1, 2] [1, 2] [1, 2]
      (by decide) (by decide) (by decide) (by decide) (by decide) 1 (by decide)

end MetaPhase
